import Mathlib

/-
Shallow embedding of the open-addressing hash table in
src/hash-table.c and src/hash-functions.c.

Modelling conventions:
* keys are byte sequences, modelled as `List Nat` together with an explicit
  length (the C code always passes the buffer and its length separately and
  compares via `doKeysMatch`, i.e. length equality plus `memcmp` of that
  many bytes);
* the caller-owned opaque `void *` value is modelled as a `Nat` handle;
  the C `NULL` miss result is the distinguished constructor `FindOut.nullPtr`;
* the `strdup` key copy made by `aaInsert` is modelled as storing the key
  byte list itself (keys are taken to be NUL-free, where `strdup` copies the
  whole buffer);
* the unbounded `for (attempt = ...;;)` loops of `quadraticProbe` and
  `doubleHashProbe` are modelled with an explicit fuel argument; running out
  of fuel yields the distinguished result `ProbeOut.diverge`, so a result
  of `ProbeOut.diverge` for every fuel value is exactly non-termination of
  the C loop;
* the probe functions return -1 in C; that is `ProbeOut.fail` here.  When a
  probe returns -1 inside `aaLookup`/`aaDelete`/`aaInsert`, the C code goes
  on to read `table[-1]`, which is an out-of-bounds access with no defined
  behaviour; the model returns the miss/failure result at that point and no
  theorem below depends on that path;
* the table's `size` field always equals the allocated slot count, so the
  model identifies it with `table.length`.
-/

namespace HashExp

/-- Slot validity tag: HASH_EMPTY (the zeroed state), HASH_USED, HASH_DELETED. -/
inductive Validity where
  | empty
  | used
  | deleted
deriving DecidableEq, Repr

/-- One slot of the table, C struct `KeyDataPair`: key buffer, key length,
caller-owned value handle, validity tag. -/
structure KeyDataPair where
  key : List Nat
  keylen : Nat
  value : Nat
  validity : Validity
deriving DecidableEq, Repr

/-- The all-zero slot produced by `memset(..., 0, ...)` at construction. -/
def emptyPair : KeyDataPair :=
  { key := [], keylen := 0, value := 0, validity := Validity.empty }

/-- doKeysMatch from hash-functions.c: if the lengths differ the keys cannot
match, otherwise `memcmp` of the first `key1len` bytes. -/
def doKeysMatch (key1 : List Nat) (key1len : Nat) (key2 : List Nat) (key2len : Nat) : Bool :=
  if key1len ≠ key2len then false
  else decide (key1.take key1len = key2.take key1len)

/-- hashByLength from hash-functions.c. -/
def hashByLength (_key : List Nat) (keyLength : Nat) (size : Nat) : Nat :=
  keyLength % size

/-- hashBySum from hash-functions.c: sum of the first `keyLength` bytes,
reduced mod `size`. -/
def hashBySum (key : List Nat) (keyLength : Nat) (size : Nat) : Nat :=
  ((key.take keyLength).foldl (fun s b => s + b) 0) % size

/-- Accumulating loop of hashByWeightSum: byte i (0-based) is weighted by
the running factor, which starts at 1. -/
def weightedSum : List Nat → Nat → Nat
  | [], _ => 0
  | b :: rest, m => b * m + weightedSum rest (m + 1)

/-- hashByWeightSum from hash-functions.c. -/
def hashByWeightSum (key : List Nat) (keyLength : Nat) (size : Nat) : Nat :=
  weightedSum (key.take keyLength) 1 % size

/-- Pluggable hash strategy: (key bytes, key length, table size) to index. -/
abbrev HashFn := List Nat → Nat → Nat → Nat

/-- Which of the three probing strategies the table was constructed with
(`lookupNamedProbingStrategy` resolves the name once at construction). -/
inductive ProbeKind where
  | linear
  | quadratic
  | double
deriving DecidableEq, Repr

/-- C struct `AssociativeArray`.  The `size` field of the C struct always
equals the number of allocated slots, so the model uses `table.length` for
it.  The strategy display-name strings are omitted (diagnostics only). -/
structure AssociativeArray where
  table : List KeyDataPair
  nEntries : Nat
  insertCost : Nat
  searchCost : Nat
  deleteCost : Nat
  hashAlgorithmPrimary : HashFn
  hashAlgorithmSecondary : HashFn
  probeKind : ProbeKind

/-- Table capacity, the C `size` field. -/
def AssociativeArray.size (t : AssociativeArray) : Nat := t.table.length

/-- Read slot `i` of a slot list, as the C code's `table[index]`. -/
def slotIn (L : List KeyDataPair) (i : Nat) : KeyDataPair := L.getD i emptyPair

/-- Read slot `i`, as the C code's `aarray->table[index]`. -/
def slotAt (t : AssociativeArray) (i : Nat) : KeyDataPair := slotIn t.table i

/-- State of a table directly after `aaCreateAssociativeArray` with `n`
slots: all slots zeroed (EMPTY), entry count and all cost counters 0. -/
def freshTable (n : Nat) (pk : ProbeKind) (h1 h2 : HashFn) : AssociativeArray :=
  { table := List.replicate n emptyPair
    nEntries := 0
    insertCost := 0
    searchCost := 0
    deleteCost := 0
    hashAlgorithmPrimary := h1
    hashAlgorithmSecondary := h2
    probeKind := pk }

/-- Result of one probe-strategy call: a returned index, the C return value
-1, or non-termination of the unbounded loop (fuel ran out). -/
inductive ProbeOut where
  | found (i : Nat)
  | fail
  | diverge
deriving DecidableEq, Repr

/-- Add `inc` to the table's `insertCost`, the field the probe functions
increment in place. -/
def bumpInsertCost (t : AssociativeArray) (inc : Nat) : AssociativeArray :=
  { t with insertCost := t.insertCost + inc }

/-- Loop body of linearProbe (hash-functions.c).  The C loop runs while
`probeCost < size`; the fuel argument is `size - probeCost`.  The probe
reads only the slot array (and writes `insertCost`), so the worker takes
the slot list; the second component of the result is the number of
`insertCost` increments performed. -/
def linearProbeAux (L : List KeyDataPair) (key : List Nat) (keyLength : Nat)
    (stopOnInvalid : Bool) : Nat → Nat → ProbeOut × Nat
  | _, 0 => (ProbeOut.fail, 0)
  | currentIndex, fuel + 1 =>
    let ci := (currentIndex + 1) % L.length
    let slot := slotIn L ci
    if slot.validity ≠ Validity.used ∨ doKeysMatch key keyLength slot.key slot.keylen = true then
      if slot.validity ≠ Validity.used then (ProbeOut.found ci, 1) else (ProbeOut.found ci, 0)
    else if stopOnInvalid = true ∧ slot.validity = Validity.deleted then
      (ProbeOut.fail, 0)
    else
      linearProbeAux L key keyLength stopOnInvalid ci fuel

/-- linearProbe from hash-functions.c: scan forward from `index + 1`,
wrapping mod size, for at most `size` steps, returning the first slot that
is not USED or holds an exactly matching key; `insertCost` is incremented
when the returned slot is not USED. -/
def linearProbe (t : AssociativeArray) (key : List Nat) (keyLength : Nat)
    (index : Nat) (stopOnInvalid : Bool) : ProbeOut × Nat :=
  linearProbeAux t.table key keyLength stopOnInvalid index t.size

/-- Loop body of quadraticProbe (hash-functions.c).  The C `for` loop has no
bound; fuel exhaustion models non-termination.  `costProvided` is the
`cost != NULL` test (the engine always passes a non-null pointer). -/
def quadraticProbeAux (L : List KeyDataPair) (key : List Nat) (keyLength : Nat)
    (index : Nat) (stopOnInvalid : Bool) (costProvided : Bool) : Nat → Nat → ProbeOut × Nat
  | _, 0 => (ProbeOut.diverge, 0)
  | attempt, fuel + 1 =>
    let newIndex := (index + attempt * attempt) % L.length
    let slot := slotIn L newIndex
    if slot.validity ≠ Validity.used ∨ doKeysMatch slot.key slot.keylen key keyLength = true then
      (ProbeOut.found newIndex, if costProvided then 1 else 0)
    else
      let rest :=
        if stopOnInvalid = true ∧ slot.validity = Validity.deleted then (ProbeOut.fail, 0)
        else quadraticProbeAux L key keyLength index stopOnInvalid costProvided (attempt + 1) fuel
      (rest.1, rest.2 + 1)

/-- quadraticProbe from hash-functions.c: candidate `(index + attempt²) % size`
for attempt = 1, 2, 3, ... with no bound on the attempt counter. -/
def quadraticProbe (t : AssociativeArray) (key : List Nat) (keyLength : Nat)
    (index : Nat) (stopOnInvalid : Bool) (costProvided : Bool) (fuel : Nat) : ProbeOut × Nat :=
  quadraticProbeAux t.table key keyLength index stopOnInvalid costProvided 1 fuel

/-- Loop body of doubleHashProbe (hash-functions.c); also an unbounded
`for` loop, with the step size fixed before the loop. -/
def doubleHashProbeAux (L : List KeyDataPair) (key : List Nat) (keyLength : Nat)
    (index stepSize : Nat) (stopOnInvalid : Bool) : Nat → Nat → ProbeOut × Nat
  | _, 0 => (ProbeOut.diverge, 0)
  | attempt, fuel + 1 =>
    let newIndex := (index + attempt * stepSize) % L.length
    let slot := slotIn L newIndex
    if slot.validity ≠ Validity.used ∨ doKeysMatch slot.key slot.keylen key keyLength = true then
      (ProbeOut.found newIndex, if slot.validity ≠ Validity.used then 1 else 0)
    else
      let rest :=
        if stopOnInvalid = true ∧ slot.validity = Validity.deleted then (ProbeOut.fail, 0)
        else doubleHashProbeAux L key keyLength index stepSize stopOnInvalid (attempt + 1) fuel
      (rest.1, rest.2 + 1)

/-- doubleHashProbe from hash-functions.c: step size from the secondary hash,
candidate `(index + attempt × step) % size` for attempt = 0, 1, 2, ...
with no bound on the attempt counter. -/
def doubleHashProbe (t : AssociativeArray) (key : List Nat) (keyLength : Nat)
    (index : Nat) (stopOnInvalid : Bool) (fuel : Nat) : ProbeOut × Nat :=
  doubleHashProbeAux t.table key keyLength index
    (t.hashAlgorithmSecondary key keyLength t.size) stopOnInvalid 0 fuel

/-- The table's configured probe strategy, the C `aarray->hashProbe(...)`
indirect call.  The engine always passes a non-null cost pointer. -/
def hashProbe (t : AssociativeArray) (key : List Nat) (keyLength : Nat)
    (index : Nat) (stopOnInvalid : Bool) (fuel : Nat) : ProbeOut × Nat :=
  match t.probeKind with
  | ProbeKind.linear => linearProbe t key keyLength index stopOnInvalid
  | ProbeKind.quadratic => quadraticProbe t key keyLength index stopOnInvalid true fuel
  | ProbeKind.double => doubleHashProbe t key keyLength index stopOnInvalid fuel

/-- Outcome of aaInsert.  In C every failure is the return value -1 and the
cases are told apart only by the code path taken (and the message printed);
the model keeps them as distinct constructors. -/
inductive InsertResult where
  | ok (idx : Nat)
  | tableFull
  | duplicateKey
  | probeFail
  | diverge
deriving DecidableEq, Repr

/-- While-loop of aaInsert (hash-table.c): while the current slot is USED,
report DuplicateKey on an exact key match, otherwise advance via the probe
strategy (always restarted from the original hash index), failing if the
probe comes back to the original index.  On exit the key, length and value
are stored in the reached slot, it is marked USED, and `nEntries` grows.
The loop fuel only pads the recursion: the probe only ever returns a slot
that is not USED or matches, so the loop exits within two iterations. -/
def aaInsertLoop (key : List Nat) (keylen : Nat) (value : Nat)
    (originalIndex probeFuel : Nat) :
    AssociativeArray → Nat → Nat → InsertResult × AssociativeArray
  | t, _, 0 => (InsertResult.diverge, t)
  | t, index, fuel + 1 =>
    let slot := slotAt t index
    if slot.validity = Validity.used then
      if doKeysMatch slot.key slot.keylen key keylen = true then
        (InsertResult.duplicateKey, t)
      else
        match hashProbe t key keylen originalIndex false probeFuel with
        | (ProbeOut.found j, inc) =>
          if j = originalIndex then (InsertResult.probeFail, bumpInsertCost t inc)
          else aaInsertLoop key keylen value originalIndex probeFuel (bumpInsertCost t inc) j fuel
        | (ProbeOut.fail, inc) => (InsertResult.probeFail, bumpInsertCost t inc)
        | (ProbeOut.diverge, inc) => (InsertResult.diverge, bumpInsertCost t inc)
    else
      (InsertResult.ok index,
        { t with
            table := t.table.set index
              { key := key, keylen := keylen, value := value, validity := Validity.used }
            nEntries := t.nEntries + 1 })

/-- aaInsert from hash-table.c.  The full-table test `nEntries >= size`
comes before any hashing or probing. -/
def aaInsert (t : AssociativeArray) (key : List Nat) (keylen : Nat) (value : Nat)
    (probeFuel : Nat) : InsertResult × AssociativeArray :=
  if t.size ≤ t.nEntries then (InsertResult.tableFull, t)
  else
    let index := t.hashAlgorithmPrimary key keylen t.size
    aaInsertLoop key keylen value index probeFuel t index (t.size + 1)

/-- Outcome of aaLookup / aaDelete: a found value, the C `NULL` miss
result, or non-termination of an unbounded probe loop. -/
inductive FindOut where
  | value (v : Nat)
  | nullPtr
  | diverge
deriving DecidableEq, Repr

/-- While-loop of aaLookup (hash-table.c): while the current slot is USED,
bump `searchCost`, return the stored value on an exact match, else advance
via the probe strategy (restarted from the original hash index), stopping
with NULL if the probe returns the original index.  A slot that is not
USED — EMPTY or DELETED alike — ends the walk with NULL. -/
def aaLookupLoop (key : List Nat) (keylen : Nat) (originalIndex probeFuel : Nat) :
    AssociativeArray → Nat → Nat → FindOut × AssociativeArray
  | t, _, 0 => (FindOut.diverge, t)
  | t, index, fuel + 1 =>
    let slot := slotAt t index
    if slot.validity = Validity.used then
      let t1 := { t with searchCost := t.searchCost + 1 }
      if doKeysMatch slot.key slot.keylen key keylen = true then
        (FindOut.value slot.value, t1)
      else
        match hashProbe t1 key keylen originalIndex false probeFuel with
        | (ProbeOut.found j, inc) =>
          if j = originalIndex then (FindOut.nullPtr, bumpInsertCost t1 inc)
          else aaLookupLoop key keylen originalIndex probeFuel (bumpInsertCost t1 inc) j fuel
        | (ProbeOut.fail, inc) => (FindOut.nullPtr, bumpInsertCost t1 inc)
        | (ProbeOut.diverge, inc) => (FindOut.diverge, bumpInsertCost t1 inc)
    else
      (FindOut.nullPtr, t)

/-- aaLookup from hash-table.c. -/
def aaLookup (t : AssociativeArray) (key : List Nat) (keylen : Nat) (probeFuel : Nat) :
    FindOut × AssociativeArray :=
  let index := t.hashAlgorithmPrimary key keylen t.size
  aaLookupLoop key keylen index probeFuel t index (t.size + 1)

/-- While-loop of aaDelete (hash-table.c): the identical walk to aaLookup
but bumping `deleteCost`; on an exact match the slot's validity flips
USED → DELETED and the stored value is returned; nothing else in the slot
is written. -/
def aaDeleteLoop (key : List Nat) (keylen : Nat) (originalIndex probeFuel : Nat) :
    AssociativeArray → Nat → Nat → FindOut × AssociativeArray
  | t, _, 0 => (FindOut.diverge, t)
  | t, index, fuel + 1 =>
    let slot := slotAt t index
    if slot.validity = Validity.used then
      let t1 := { t with deleteCost := t.deleteCost + 1 }
      if doKeysMatch slot.key slot.keylen key keylen = true then
        (FindOut.value slot.value,
          { t1 with table := t1.table.set index { slot with validity := Validity.deleted } })
      else
        match hashProbe t1 key keylen originalIndex false probeFuel with
        | (ProbeOut.found j, inc) =>
          if j = originalIndex then (FindOut.nullPtr, bumpInsertCost t1 inc)
          else aaDeleteLoop key keylen originalIndex probeFuel (bumpInsertCost t1 inc) j fuel
        | (ProbeOut.fail, inc) => (FindOut.nullPtr, bumpInsertCost t1 inc)
        | (ProbeOut.diverge, inc) => (FindOut.diverge, bumpInsertCost t1 inc)
    else
      (FindOut.nullPtr, t)

/-- aaDelete from hash-table.c. -/
def aaDelete (t : AssociativeArray) (key : List Nat) (keylen : Nat) (probeFuel : Nat) :
    FindOut × AssociativeArray :=
  let index := t.hashAlgorithmPrimary key keylen t.size
  aaDeleteLoop key keylen index probeFuel t index (t.size + 1)

/-- Index loop of aaIterateAction (hash-table.c), walking the slot list in
index order: each USED slot's key, length and value are passed to the user
function; a negative user-function result aborts with -1; reaching the end
returns 1.  The user data is threaded explicitly (C mutates it through a
pointer). -/
def iterAux {UD : Type} (f : List Nat → Nat → Nat → UD → Int × UD) :
    List KeyDataPair → UD → Int × UD
  | [], u => (1, u)
  | slot :: rest, u =>
    if slot.validity = Validity.used then
      let r := f slot.key slot.keylen slot.value u
      if r.1 < 0 then (-1, r.2) else iterAux f rest r.2
    else
      iterAux f rest u

/-- aaIterateAction from hash-table.c. -/
def aaIterateAction {UD : Type} (t : AssociativeArray)
    (f : List Nat → Nat → Nat → UD → Int × UD) (u : UD) : Int × UD :=
  iterAux f t.table u

/-- Run a list of (key, keylen, value) inserts left to right, keeping the
table state, with the same probe fuel for each call. -/
def runInserts (probeFuel : Nat) : AssociativeArray → List (List Nat × Nat × Nat) → AssociativeArray
  | t, [] => t
  | t, (k, l, v) :: rest => runInserts probeFuel (aaInsert t k l v probeFuel).2 rest

/-- Entries of the USED slots in slot-index order, as (key, keylen, value)
triples.  Spec-side description of the table contents that traversal is
required to emit. -/
def usedEntries (t : AssociativeArray) : List (List Nat × Nat × Nat) :=
  t.table.filterMap
    (fun s => if s.validity = Validity.used then some (s.key, s.keylen, s.value) else none)

/-- Spec-side traversal: visit the given entries in order, stopping with -1
the moment an invocation signals failure, reporting 1 otherwise.  Written
from the spec's description of Traverse, to be compared with
`aaIterateAction`. -/
def visitEntries {UD : Type} (f : List Nat → Nat → Nat → UD → Int × UD) :
    List (List Nat × Nat × Nat) → UD → Int × UD
  | [], u => (1, u)
  | (k, l, v) :: rest, u =>
    let r := f k l v u
    if r.1 < 0 then (-1, r.2) else visitEntries f rest r.2

/- Concrete tables used as inputs of several theorems below.  With the sum
hash and capacity 5, the keys [1], [6], [11], [16] all hash to start
index 1, so they form one collision chain under linear probing. -/

/-- Fresh 5-slot table with linear probing and the sum hash. -/
def linTable5 : AssociativeArray :=
  freshTable 5 ProbeKind.linear hashBySum hashBySum

/-- linTable5 after inserting keys [1] (slot 1) and [6] (slot 2). -/
def tPair : AssociativeArray :=
  runInserts 0 linTable5 [([1], 1, 10), ([6], 1, 20)]

/-- linTable5 after inserting keys [1], [6], [11] (slots 1, 2, 3). -/
def tTriple : AssociativeArray :=
  runInserts 0 linTable5 [([1], 1, 10), ([6], 1, 20), ([11], 1, 30)]

/-- tTriple after deleting [6]: a tombstone at slot 2 sits on the probe
path from start index 1 to key [11] in USED slot 3. -/
def tTomb : AssociativeArray := (aaDelete tTriple [6] 1 0).2

/-- tPair after deleting [1]: a tombstone at start index 1, while key [6]
is still USED at slot 2. -/
def tPreDup : AssociativeArray := (aaDelete tPair [1] 1 0).2

/-- tPreDup after inserting key [6] again: the insert lands in the
tombstoned start slot 1 without ever seeing the existing [6] at slot 2. -/
def tDup : AssociativeArray := (aaInsert tPreDup [6] 1 30 0).2

/-- Fresh 3-slot table with quadratic probing and the sum hash. -/
def qFresh : AssociativeArray :=
  freshTable 3 ProbeKind.quadratic hashBySum hashBySum

/-- qFresh after inserting keys [0] (slot 0) and [3] (slot 1); slot 2 is
still EMPTY, but `(0 + a²) % 3` only ever visits slots 0 and 1. -/
def qTwo : AssociativeArray :=
  runInserts 9 qFresh [([0], 1, 10), ([3], 1, 20)]

/-- Fresh 3-slot double-hashing table (secondary hash: key length) holding
key [1] at slot 1.  For a 3-byte key the step size is 3 % 3 = 0, so the
probe sequence never leaves its start index. -/
def dOne : AssociativeArray :=
  (aaInsert (freshTable 3 ProbeKind.double hashBySum hashByLength) [1] 1 10 9).2

/-- Full 2-slot linear table: keys [0] and [1] occupy slots 0 and 1, and
nEntries = size = 2. -/
def tFull : AssociativeArray :=
  runInserts 0 (freshTable 2 ProbeKind.linear hashBySum hashBySum) [([0], 1, 7), ([1], 1, 8)]

/-- Acceptance condition of the probe walks, exactly the `if` of
linearProbe: the probed slot is not USED, or its key matches the query
exactly. -/
abbrev acceptL (L : List KeyDataPair) (key : List Nat) (keyLength : Nat) (p : Nat) : Prop :=
  (slotIn L p).validity ≠ Validity.used ∨
    doKeysMatch key keyLength (slotIn L p).key (slotIn L p).keylen = true

/-- Linear probe-chain description of one stored entry: walking offsets
m = 0, 1, ..., d-1 from the start index i0 every slot on the way is USED
with a non-matching key, and the slot at offset d holds the entry. -/
def chainOK (t : AssociativeArray) (i0 : Nat) (k : List Nat) (l v : Nat) : Prop :=
  ∃ d, d < t.size ∧
    slotAt t ((i0 + d) % t.size)
      = { key := k, keylen := l, value := v, validity := Validity.used } ∧
    ∀ m, m < d →
      (slotAt t ((i0 + m) % t.size)).validity = Validity.used ∧
      doKeysMatch (slotAt t ((i0 + m) % t.size)).key
        (slotAt t ((i0 + m) % t.size)).keylen k l = false

/-- Invariant tying a table reached by a run of linear-probing inserts
(no deletes) to the list `done` of (key, keylen, value) triples inserted
so far: the capacity and the configuration are unchanged, nEntries and
the number of USED slots both equal the number of inserts, no slot is
DELETED, every USED slot holds one of the inserted triples, and every
inserted triple sits at the end of an intact probe chain. -/
def InvC1 (n : Nat) (h1 : HashFn) (done : List (List Nat × Nat × Nat))
    (t : AssociativeArray) : Prop :=
  t.table.length = n ∧
  t.hashAlgorithmPrimary = h1 ∧
  t.probeKind = ProbeKind.linear ∧
  t.nEntries = done.length ∧
  t.table.countP (fun s => decide (s.validity = Validity.used)) = done.length ∧
  (∀ i, i < n → (slotIn t.table i).validity = Validity.used →
    ((slotIn t.table i).key, (slotIn t.table i).keylen, (slotIn t.table i).value) ∈ done) ∧
  (∀ trip ∈ done, chainOK t (h1 trip.1 trip.2.1 n) trip.1 trip.2.1 trip.2.2)

/- Helper lemmas. -/

theorem slotIn_set_self : ∀ (L : List KeyDataPair) (i : Nat) (a : KeyDataPair),
    i < L.length → slotIn (L.set i a) i = a := by
  intro L
  induction L with
  | nil => intro i a h; simp at h
  | cons x xs ih =>
    intro i a h
    cases i with
    | zero => rfl
    | succ n => exact ih n a (by simpa using h)

theorem slotIn_set_ne : ∀ (L : List KeyDataPair) (i j : Nat) (a : KeyDataPair),
    j ≠ i → slotIn (L.set i a) j = slotIn L j := by
  intro L
  induction L with
  | nil => intro i j a _; rfl
  | cons x xs ih =>
    intro i j a hne
    cases i with
    | zero =>
      cases j with
      | zero => exact absurd rfl hne
      | succ m => rfl
    | succ n =>
      cases j with
      | zero => rfl
      | succ m => exact ih n m a (fun h => hne (by rw [h]))

theorem slotIn_used_lt (L : List KeyDataPair) (i : Nat)
    (h : (slotIn L i).validity = Validity.used) : i < L.length := by
  by_contra hge
  have : L.getD i emptyPair = emptyPair := List.getD_eq_default _ _ (Nat.le_of_not_lt hge)
  rw [slotIn, this] at h
  exact absurd h (by simp [emptyPair])

theorem doKeysMatch_symm (k1 : List Nat) (l1 : Nat) (k2 : List Nat) (l2 : Nat) :
    doKeysMatch k1 l1 k2 l2 = doKeysMatch k2 l2 k1 l1 := by
  unfold doKeysMatch
  rcases eq_or_ne l1 l2 with h | h
  · subst h
    simp only [ne_eq, not_true_eq_false, if_false, ite_false]
    rw [decide_eq_decide]
    exact eq_comm
  · simp [h, h.symm]

theorem doKeysMatch_self (k : List Nat) (l : Nat) : doKeysMatch k l k l = true := by
  simp [doKeysMatch]

theorem slotIn_replicate (n i : Nat) : slotIn (List.replicate n emptyPair) i = emptyPair := by
  induction n generalizing i with
  | zero => rfl
  | succ m ih =>
    cases i with
    | zero => rfl
    | succ j => exact ih j

theorem countP_set_incr (p : KeyDataPair → Bool) :
    ∀ (L : List KeyDataPair) (idx : Nat) (a : KeyDataPair), idx < L.length →
      p (slotIn L idx) = false → p a = true →
      (L.set idx a).countP p = L.countP p + 1 := by
  intro L
  induction L with
  | nil => intro idx a h; simp at h
  | cons x xs ih =>
    intro idx a hlt hold hnew
    cases idx with
    | zero =>
      have hx : p x = false := hold
      simp [List.countP_cons, hnew, hx]
    | succ m =>
      have hrec := ih m a (by simpa using hlt) hold hnew
      simp [List.countP_cons, hrec]
      omega

theorem exists_nonused (p : KeyDataPair → Bool) :
    ∀ (L : List KeyDataPair), L.countP p < L.length →
      ∃ i, i < L.length ∧ p (slotIn L i) = false := by
  intro L
  induction L with
  | nil => intro h; simp at h
  | cons x xs ih =>
    intro h
    by_cases hx : p x = true
    · have h2 : xs.countP p < xs.length := by
        rw [List.countP_cons, hx] at h
        simpa using Nat.lt_of_add_lt_add_right h
      obtain ⟨i, hi, hp⟩ := ih h2
      exact ⟨i + 1, by simpa using hi, hp⟩
    · exact ⟨0, by simp, by simpa using hx⟩

theorem step_to_index (n i0 e : Nat) (hi : i0 < n) (he : e < n) (_hne : e ≠ i0) :
    ∃ m, 1 ≤ m ∧ m ≤ n ∧ (i0 + m) % n = e := by
  rcases Nat.lt_or_ge i0 e with hlt | hge
  · refine ⟨e - i0, by omega, by omega, ?_⟩
    rw [show i0 + (e - i0) = e by omega, Nat.mod_eq_of_lt he]
  · refine ⟨n - i0 + e, by omega, by omega, ?_⟩
    rw [show i0 + (n - i0 + e) = n + e by omega, Nat.add_mod_left, Nat.mod_eq_of_lt he]

theorem add_mod_ne_self (n i0 d : Nat) (hi : i0 < n) (hd1 : 1 ≤ d) (hdn : d < n) :
    (i0 + d) % n ≠ i0 := by
  intro hcontra
  rcases Nat.lt_or_ge (i0 + d) n with hlt | hge
  · rw [Nat.mod_eq_of_lt hlt] at hcontra
    omega
  · rw [Nat.mod_eq_sub_mod hge, Nat.mod_eq_of_lt (by omega : i0 + d - n < n)] at hcontra
    omega

theorem aaInsertLoop_store (key : List Nat) (keylen value oi pf : Nat)
    (t : AssociativeArray) (idx fuel : Nat) (hf : 1 ≤ fuel)
    (hnu : ¬ (slotAt t idx).validity = Validity.used) :
    aaInsertLoop key keylen value oi pf t idx fuel
      = (InsertResult.ok idx,
        { t with
            table := t.table.set idx
              { key := key, keylen := keylen, value := value, validity := Validity.used }
            nEntries := t.nEntries + 1 }) := by
  cases fuel with
  | zero => omega
  | succ f => rw [aaInsertLoop, if_neg hnu]

theorem aaLookupLoop_hit (key : List Nat) (keylen oi pf : Nat)
    (t : AssociativeArray) (idx fuel : Nat) (hf : 1 ≤ fuel)
    (hu : (slotAt t idx).validity = Validity.used)
    (hm : doKeysMatch (slotAt t idx).key (slotAt t idx).keylen key keylen = true) :
    (aaLookupLoop key keylen oi pf t idx fuel).1 = FindOut.value ((slotAt t idx).value) := by
  cases fuel with
  | zero => omega
  | succ f => rw [aaLookupLoop, if_pos hu, if_pos hm]

theorem chainOK_set_preserve (t : AssociativeArray) (idx : Nat) (a : KeyDataPair) (en : Nat)
    (hno : ¬ (slotAt t idx).validity = Validity.used)
    (i0 : Nat) (k : List Nat) (l v : Nat)
    (hch : chainOK t i0 k l v) :
    chainOK { t with table := t.table.set idx a, nEntries := en } i0 k l v := by
  obtain ⟨d, hdn, hhome, hpre⟩ := hch
  have hsz : ({ t with table := t.table.set idx a, nEntries := en } :
      AssociativeArray).size = t.size := by
    simp [AssociativeArray.size, List.length_set]
  refine ⟨d, by rw [hsz]; exact hdn, ?_, ?_⟩
  · rw [hsz]
    have hne : (i0 + d) % t.size ≠ idx := by
      intro he
      apply hno
      rw [← he, hhome]
    show slotIn (t.table.set idx a) ((i0 + d) % t.size) = _
    rw [slotIn_set_ne _ _ _ _ hne]
    exact hhome
  · intro m hm
    rw [hsz]
    have hprem := hpre m hm
    have hne : (i0 + m) % t.size ≠ idx := fun he => hno (by rw [← he]; exact hprem.1)
    constructor
    · show (slotIn (t.table.set idx a) ((i0 + m) % t.size)).validity = _
      rw [slotIn_set_ne _ _ _ _ hne]
      exact hprem.1
    · show doKeysMatch (slotIn (t.table.set idx a) ((i0 + m) % t.size)).key
        (slotIn (t.table.set idx a) ((i0 + m) % t.size)).keylen k l = false
      rw [slotIn_set_ne _ _ _ _ hne]
      exact hprem.2

theorem InvC1_store (n : Nat) (h1 : HashFn)
    (done : List (List Nat × Nat × Nat)) (t : AssociativeArray)
    (hinv : InvC1 n h1 done t)
    (k : List Nat) (l v : Nat)
    (idx : Nat) (hidx : idx < n)
    (hempty : ¬ (slotAt t idx).validity = Validity.used)
    (d : Nat) (hdn : d < n) (hdix : (h1 k l n + d) % n = idx)
    (hpre : ∀ m, m < d →
      (slotAt t ((h1 k l n + m) % n)).validity = Validity.used ∧
      doKeysMatch (slotAt t ((h1 k l n + m) % n)).key
        (slotAt t ((h1 k l n + m) % n)).keylen k l = false) :
    InvC1 n h1 (done ++ [(k, l, v)])
      { t with
          table := t.table.set idx
            { key := k, keylen := l, value := v, validity := Validity.used }
          nEntries := t.nEntries + 1 } := by
  obtain ⟨hlen, hh, hpk, hn, hcount, hfrom, hchains⟩ := hinv
  have hidxL : idx < t.table.length := by rw [hlen]; exact hidx
  have hszn : t.size = n := by rw [AssociativeArray.size, hlen]
  refine ⟨?_, hh, hpk, ?_, ?_, ?_, ?_⟩
  · show (t.table.set idx _).length = n
    rw [List.length_set, hlen]
  · show t.nEntries + 1 = (done ++ [(k, l, v)]).length
    rw [hn, List.length_append]
    rfl
  · show (t.table.set idx _).countP _ = (done ++ [(k, l, v)]).length
    rw [countP_set_incr (fun s => decide (s.validity = Validity.used)) t.table idx
        { key := k, keylen := l, value := v, validity := Validity.used }
        hidxL (decide_eq_false hempty) rfl,
      hcount, List.length_append]
    rfl
  · intro i hi hui
    by_cases hie : i = idx
    · subst hie
      show _ ∈ done ++ [(k, l, v)]
      rw [show slotIn (t.table.set i
          { key := k, keylen := l, value := v, validity := Validity.used }) i
          = { key := k, keylen := l, value := v, validity := Validity.used }
          from slotIn_set_self _ _ _ hidxL]
      simp
    · rw [show slotIn (t.table.set idx
          { key := k, keylen := l, value := v, validity := Validity.used }) i
          = slotIn t.table i from slotIn_set_ne _ _ _ _ hie] at hui ⊢
      exact List.mem_append_left _ (hfrom i hi hui)
  · intro trip htrip
    rcases List.mem_append.mp htrip with hdone | hsingle
    · exact chainOK_set_preserve t idx _ _ hempty _ _ _ _ (hchains trip hdone)
    · have htripe : trip = (k, l, v) := by simpa using hsingle
      subst htripe
      have hsz' : ({ t with
          table := t.table.set idx
            { key := k, keylen := l, value := v, validity := Validity.used }
          nEntries := t.nEntries + 1 } : AssociativeArray).size = n := by
        simp [AssociativeArray.size, List.length_set, hlen]
      refine ⟨d, by rw [hsz']; exact hdn, ?_, ?_⟩
      · rw [hsz']
        show slotIn (t.table.set idx
          { key := k, keylen := l, value := v, validity := Validity.used }) ((h1 k l n + d) % n)
          = _
        rw [hdix, slotIn_set_self _ _ _ hidxL]
      · intro m hm
        rw [hsz']
        have hprem := hpre m hm
        have hne : (h1 k l n + m) % n ≠ idx := fun he =>
          hempty (by rw [← he]; exact hprem.1)
        constructor
        · show (slotIn (t.table.set idx
            { key := k, keylen := l, value := v, validity := Validity.used })
            ((h1 k l n + m) % n)).validity = _
          rw [slotIn_set_ne _ _ _ _ hne]
          exact hprem.1
        · show doKeysMatch (slotIn (t.table.set idx
              { key := k, keylen := l, value := v, validity := Validity.used })
              ((h1 k l n + m) % n)).key
            (slotIn (t.table.set idx
              { key := k, keylen := l, value := v, validity := Validity.used })
              ((h1 k l n + m) % n)).keylen k l = false
          rw [slotIn_set_ne _ _ _ _ hne]
          exact hprem.2

theorem linearProbeAux_finds (L : List KeyDataPair) (key : List Nat) (keyLength n : Nat)
    (hLn : L.length = n) :
    ∀ (d : Nat), 1 ≤ d → ∀ (fuel cur : Nat), d ≤ fuel →
      (∀ m, 1 ≤ m → m < d → ¬ acceptL L key keyLength ((cur + m) % n)) →
      acceptL L key keyLength ((cur + d) % n) →
      (linearProbeAux L key keyLength false cur fuel).1 = ProbeOut.found ((cur + d) % n) := by
  intro d
  induction d with
  | zero => intro h; omega
  | succ d ih =>
    intro _ fuel cur hfuel hmin hacc
    cases fuel with
    | zero => omega
    | succ f =>
      simp only [linearProbeAux]
      rw [hLn]
      rcases Nat.eq_zero_or_pos d with hd0 | hdpos
      · subst hd0
        rw [if_pos (by simpa using hacc)]
        split <;> simp
      · have hn1 : ¬ acceptL L key keyLength ((cur + 1) % n) :=
          hmin 1 (Nat.le_refl 1) (by omega)
        rw [if_neg hn1, if_neg (by simp)]
        have hshift : ∀ m : Nat, ((cur + 1) % n + m) % n = (cur + (m + 1)) % n := by
          intro m
          rw [Nat.mod_add_mod]
          congr 1
          omega
        have hres := ih hdpos f ((cur + 1) % n) (by omega)
          (fun m hm1 hmd => by
            rw [hshift m]
            exact hmin (m + 1) (by omega) (by omega))
          (by rw [hshift d]; exact hacc)
        rw [hres, hshift d]

theorem InvC1_insert (n : Nat) (h1 : HashFn) (hb : ∀ k l, h1 k l n < n)
    (done : List (List Nat × Nat × Nat)) (t : AssociativeArray)
    (hinv : InvC1 n h1 done t) (hroom : done.length < n)
    (k : List Nat) (l v : Nat)
    (hnew : ∀ dd ∈ done, doKeysMatch dd.1 dd.2.1 k l = false) :
    InvC1 n h1 (done ++ [(k, l, v)]) (aaInsert t k l v 0).2 := by
  obtain ⟨hlen, hh, hpk, hn, hcount, hfrom, hchains⟩ := hinv
  have hszn : t.size = n := by rw [AssociativeArray.size, hlen]
  have hfull : ¬ (t.size ≤ t.nEntries) := by rw [hszn, hn]; omega
  have hi0eq : t.hashAlgorithmPrimary k l t.size = h1 k l n := by rw [hh, hszn]
  have hi0lt : h1 k l n < n := hb k l
  have hnpos : 0 < n := by omega
  simp only [aaInsert]
  rw [if_neg hfull, hi0eq]
  by_cases hused : (slotAt t (h1 k l n)).validity = Validity.used
  case neg =>
    rw [aaInsertLoop_store k l v _ 0 t _ (t.size + 1) (by omega) hused]
    exact InvC1_store n h1 done t ⟨hlen, hh, hpk, hn, hcount, hfrom, hchains⟩
      k l v (h1 k l n) hi0lt hused 0 hnpos
      (by rw [Nat.add_zero, Nat.mod_eq_of_lt hi0lt])
      (fun m hm => absurd hm (Nat.not_lt_zero m))
  case pos =>
    have hmemi0 := hfrom (h1 k l n) hi0lt hused
    have hmatch : doKeysMatch (slotAt t (h1 k l n)).key (slotAt t (h1 k l n)).keylen k l
        = false := hnew _ hmemi0
    have hclt : t.table.countP (fun s => decide (s.validity = Validity.used))
        < t.table.length := by
      rw [hcount, hlen]; exact hroom
    obtain ⟨e, helt, henu⟩ := exists_nonused _ t.table hclt
    have heltn : e < n := by rw [← hlen]; exact helt
    have henu' : ¬ (slotIn t.table e).validity = Validity.used := by
      intro hcme
      rw [hcme] at henu
      simp at henu
    have hei : e ≠ h1 k l n := by
      intro he
      exact henu' (by rw [he]; exact hused)
    obtain ⟨mw, hmw1, hmwn, hmweq⟩ := step_to_index n (h1 k l n) e hi0lt heltn hei
    have hPex : ∃ m, acceptL t.table k l ((h1 k l n + (m + 1)) % n) := by
      refine ⟨mw - 1, ?_⟩
      rw [show mw - 1 + 1 = mw by omega, hmweq]
      exact Or.inl henu'
    have hdacc : acceptL t.table k l ((h1 k l n + (Nat.find hPex + 1)) % n) :=
      Nat.find_spec hPex
    have hdmin : ∀ m, 1 ≤ m → m < Nat.find hPex + 1 →
        ¬ acceptL t.table k l ((h1 k l n + m) % n) := by
      intro m hm1 hmd
      have hfm := Nat.find_min hPex (show m - 1 < Nat.find hPex by omega)
      rw [show m - 1 + 1 = m by omega] at hfm
      exact hfm
    have hdmw : Nat.find hPex + 1 ≤ mw := by
      have := Nat.find_min' hPex (by
        rw [show mw - 1 + 1 = mw by omega, hmweq]
        exact Or.inl henu')
      omega
    have hmatch' : doKeysMatch (slotIn t.table (h1 k l n)).key
        (slotIn t.table (h1 k l n)).keylen k l = false := hmatch
    have hdn : Nat.find hPex + 1 < n := by
      rcases Nat.lt_or_ge (Nat.find hPex + 1) n with h | h
      · exact h
      · exfalso
        have hdeq : Nat.find hPex + 1 = n := by omega
        rw [hdeq, Nat.add_mod_right, Nat.mod_eq_of_lt hi0lt] at hdacc
        rcases hdacc with hbad | hbad
        · exact hbad hused
        · rw [doKeysMatch_symm, hmatch'] at hbad
          exact absurd hbad (by decide)
    have hjlt : (h1 k l n + (Nat.find hPex + 1)) % n < n := Nat.mod_lt _ hnpos
    have hjnu : ¬ (slotIn t.table ((h1 k l n + (Nat.find hPex + 1)) % n)).validity
        = Validity.used := by
      rcases hdacc with hnu | hmt
      · exact hnu
      · intro hujj
        have hmem := hfrom _ hjlt hujj
        have hfalse := hnew _ hmem
        rw [doKeysMatch_symm, hfalse] at hmt
        exact absurd hmt (by decide)
    have hpre : ∀ m, m < Nat.find hPex + 1 →
        (slotAt t ((h1 k l n + m) % n)).validity = Validity.used ∧
        doKeysMatch (slotAt t ((h1 k l n + m) % n)).key
          (slotAt t ((h1 k l n + m) % n)).keylen k l = false := by
      intro m hm
      rcases Nat.eq_zero_or_pos m with hm0 | hmpos
      · subst hm0
        rw [Nat.add_zero, Nat.mod_eq_of_lt hi0lt]
        exact ⟨hused, hmatch⟩
      · have hna := hdmin m hmpos hm
        have hu1 : (slotIn t.table ((h1 k l n + m) % n)).validity = Validity.used := by
          by_contra hcon
          exact hna (Or.inl hcon)
        have hm1' : ¬ doKeysMatch k l (slotIn t.table ((h1 k l n + m) % n)).key
            (slotIn t.table ((h1 k l n + m) % n)).keylen = true :=
          fun hc => hna (Or.inr hc)
        refine ⟨hu1, ?_⟩
        show doKeysMatch (slotIn t.table ((h1 k l n + m) % n)).key
          (slotIn t.table ((h1 k l n + m) % n)).keylen k l = false
        rw [doKeysMatch_symm]
        cases hB : doKeysMatch k l (slotIn t.table ((h1 k l n + m) % n)).key
            (slotIn t.table ((h1 k l n + m) % n)).keylen with
        | false => rfl
        | true => exact absurd hB hm1'
    have hfirst : (linearProbeAux t.table k l false (h1 k l n) t.size).1
        = ProbeOut.found ((h1 k l n + (Nat.find hPex + 1)) % n) :=
      linearProbeAux_finds t.table k l n hlen (Nat.find hPex + 1) (by omega)
        t.size (h1 k l n) (by rw [hszn]; omega) hdmin hdacc
    rcases hpr : hashProbe t k l (h1 k l n) false 0 with ⟨po, inc⟩
    have hpo : po = ProbeOut.found ((h1 k l n + (Nat.find hPex + 1)) % n) := by
      have hun : hashProbe t k l (h1 k l n) false 0
          = linearProbe t k l (h1 k l n) false := by
        simp only [hashProbe, hpk]
      rw [hun] at hpr
      have h2 := hfirst
      rw [show linearProbeAux t.table k l false (h1 k l n) t.size
          = linearProbe t k l (h1 k l n) false from rfl, hpr] at h2
      exact h2
    subst hpo
    rw [aaInsertLoop, if_pos hused, if_neg (by rw [hmatch]; exact (by decide)), hpr]
    dsimp only
    rw [if_neg (add_mod_ne_self n (h1 k l n) (Nat.find hPex + 1) hi0lt (by omega) hdn)]
    rw [aaInsertLoop_store k l v (h1 k l n) 0 (bumpInsertCost t inc)
      ((h1 k l n + (Nat.find hPex + 1)) % n) t.size (by rw [hszn]; omega) hjnu]
    exact InvC1_store n h1 done (bumpInsertCost t inc)
      ⟨hlen, hh, hpk, hn, hcount, hfrom, hchains⟩
      k l v ((h1 k l n + (Nat.find hPex + 1)) % n) hjlt hjnu
      (Nat.find hPex + 1) hdn rfl hpre

theorem InvC1_run (n : Nat) (h1 : HashFn) (hb : ∀ k l, h1 k l n < n) :
    ∀ (rest done : List (List Nat × Nat × Nat)) (t : AssociativeArray),
      InvC1 n h1 done t →
      done.length + rest.length ≤ n →
      (done ++ rest).Pairwise (fun a b => doKeysMatch a.1 a.2.1 b.1 b.2.1 = false) →
      InvC1 n h1 (done ++ rest) (runInserts 0 t rest) := by
  intro rest
  induction rest with
  | nil =>
    intro done t hinv _ _
    simpa using hinv
  | cons x rest ih =>
    intro done t hinv hlen hpw
    obtain ⟨k, l, v⟩ := x
    have hroom : done.length < n := by
      rw [List.length_cons] at hlen
      omega
    have hnew : ∀ dd ∈ done, doKeysMatch dd.1 dd.2.1 k l = false := by
      intro dd hdd
      exact (List.pairwise_append.mp hpw).2.2 dd hdd (k, l, v) (List.mem_cons_self _ _)
    have hstep := InvC1_insert n h1 hb done t hinv hroom k l v hnew
    have hlen' : (done ++ [(k, l, v)]).length + rest.length ≤ n := by
      rw [List.length_cons] at hlen
      simp only [List.length_append, List.length_cons, List.length_nil]
      omega
    have hpw' : ((done ++ [(k, l, v)]) ++ rest).Pairwise
        (fun a b => doKeysMatch a.1 a.2.1 b.1 b.2.1 = false) := by
      rw [List.append_assoc]
      exact hpw
    have hrun := ih (done ++ [(k, l, v)]) (aaInsert t k l v 0).2 hstep hlen' hpw'
    rw [List.append_assoc] at hrun
    exact hrun

theorem lookup_of_chainOK (n : Nat) (h1 : HashFn) (t : AssociativeArray)
    (hlen : t.table.length = n) (hh : t.hashAlgorithmPrimary = h1)
    (hpk : t.probeKind = ProbeKind.linear)
    (k : List Nat) (l v : Nat) (hi0 : h1 k l n < n)
    (hch : chainOK t (h1 k l n) k l v) :
    (aaLookup t k l 0).1 = FindOut.value v := by
  have hszn : t.size = n := by rw [AssociativeArray.size, hlen]
  obtain ⟨d, hdn, hhome, hpre⟩ := hch
  rw [hszn] at hdn hhome hpre
  have hnpos : 0 < n := by omega
  simp only [aaLookup]
  rw [hh, hszn]
  rcases Nat.eq_zero_or_pos d with hd0 | hdpos
  · subst hd0
    rw [Nat.add_zero, Nat.mod_eq_of_lt hi0] at hhome
    rw [aaLookupLoop_hit k l _ 0 t _ (n + 1) (by omega)
      (by rw [hhome]) (by rw [hhome]; exact doKeysMatch_self k l)]
    rw [hhome]
  · have hp0 := hpre 0 hdpos
    rw [Nat.add_zero, Nat.mod_eq_of_lt hi0] at hp0
    rw [aaLookupLoop, if_pos hp0.1, if_neg (by rw [hp0.2]; exact (by decide))]
    have hfirst : (linearProbeAux t.table k l false (h1 k l n) t.size).1
        = ProbeOut.found ((h1 k l n + d) % n) := by
      apply linearProbeAux_finds t.table k l n hlen d hdpos t.size (h1 k l n)
        (by rw [hszn]; omega)
      · intro m hm1 hmd
        have hpm := hpre m hmd
        intro hacc
        rcases hacc with hnu | hmt
        · exact hnu hpm.1
        · have hpm2 : doKeysMatch (slotIn t.table ((h1 k l n + m) % n)).key
              (slotIn t.table ((h1 k l n + m) % n)).keylen k l = false := hpm.2
          rw [doKeysMatch_symm, hpm2] at hmt
          exact absurd hmt (by decide)
      · have hhome' : slotIn t.table ((h1 k l n + d) % n)
            = { key := k, keylen := l, value := v, validity := Validity.used } := hhome
        right
        rw [hhome']
        exact doKeysMatch_self k l
    rcases hpr : hashProbe { t with searchCost := t.searchCost + 1 } k l (h1 k l n) false 0
      with ⟨po, inc⟩
    have hpo : po = ProbeOut.found ((h1 k l n + d) % n) := by
      have hun : hashProbe { t with searchCost := t.searchCost + 1 } k l (h1 k l n) false 0
          = linearProbe { t with searchCost := t.searchCost + 1 } k l (h1 k l n) false := by
        simp only [hashProbe, hpk]
      rw [hun] at hpr
      have h2 := hfirst
      rw [show linearProbeAux t.table k l false (h1 k l n) t.size
          = linearProbe { t with searchCost := t.searchCost + 1 } k l (h1 k l n) false
          from rfl, hpr] at h2
      exact h2
    subst hpo
    dsimp only
    rw [if_neg (add_mod_ne_self n (h1 k l n) d hi0 (by omega) hdn)]
    have hhomeIn : slotIn t.table ((h1 k l n + d) % n)
        = { key := k, keylen := l, value := v, validity := Validity.used } := hhome
    rw [aaLookupLoop_hit k l (h1 k l n) 0
      (bumpInsertCost { t with searchCost := t.searchCost + 1 } inc)
      ((h1 k l n + d) % n) n (by omega)
      (show (slotIn t.table ((h1 k l n + d) % n)).validity = Validity.used by
        rw [hhomeIn])
      (show doKeysMatch (slotIn t.table ((h1 k l n + d) % n)).key
          (slotIn t.table ((h1 k l n + d) % n)).keylen k l = true by
        rw [hhomeIn]
        exact doKeysMatch_self k l)]
    show FindOut.value ((slotIn t.table ((h1 k l n + d) % n)).value) = FindOut.value v
    rw [hhomeIn]

/-- C1, amended to linear probing: on a freshly constructed table with the
linear probing strategy, any primary hash strategy that maps into
[0, capacity) and any secondary hash strategy, after a sequence of Insert
calls with mutually distinct keys (by exact byte+length comparison) whose
length does not exceed the capacity, every inserted key is retrievable via
Lookup, and Lookup returns exactly the value supplied at insert time.  The
restriction to linear probing is forced by the counterexample
`roundtrip_fails_on_quadratic`: with the quadratic (and likewise the
double-hashing) strategy such an insert sequence can make the unbounded
probe loop run forever, so the claim fails for those configurations. -/
theorem insert_lookup_roundtrip_linear (n : Nat) (h1 h2 : HashFn)
    (hb : ∀ k l, h1 k l n < n)
    (inserts : List (List Nat × Nat × Nat))
    (hlen : inserts.length ≤ n)
    (hdis : inserts.Pairwise (fun a b => doKeysMatch a.1 a.2.1 b.1 b.2.1 = false))
    (trip : List Nat × Nat × Nat) (hmem : trip ∈ inserts) :
    (aaLookup (runInserts 0 (freshTable n ProbeKind.linear h1 h2) inserts)
      trip.1 trip.2.1 0).1 = FindOut.value trip.2.2 := by
  have hinv0 : InvC1 n h1 [] (freshTable n ProbeKind.linear h1 h2) := by
    refine ⟨?_, rfl, rfl, rfl, ?_, ?_, ?_⟩
    · exact List.length_replicate n emptyPair
    · rw [List.countP_eq_zero.mpr]
      · rfl
      · intro a ha
        rw [List.eq_of_mem_replicate ha]
        decide
    · intro i _ hused
      simp only [freshTable] at hused
      rw [slotIn_replicate] at hused
      exact absurd hused (by decide)
    · intro trip htrip
      exact absurd htrip (List.not_mem_nil _)
  have hrun := InvC1_run n h1 hb inserts [] (freshTable n ProbeKind.linear h1 h2)
    hinv0 (by simpa using hlen) (by simpa using hdis)
  rw [List.nil_append] at hrun
  obtain ⟨hL, hH, hPK, _, _, _, hchains⟩ := hrun
  exact lookup_of_chainOK n h1 _ hL hH hPK trip.1 trip.2.1 trip.2.2 (hb _ _)
    (hchains trip hmem)

/-- Witness for insert_lookup_roundtrip_linear: three distinct single-byte
keys inserted into a fresh 5-slot linear/sum table, with the middle key
looked up afterwards. -/
theorem insert_lookup_roundtrip_linear_witness :
    (∀ k l, hashBySum k l 5 < 5) ∧
    (aaLookup (runInserts 0 (freshTable 5 ProbeKind.linear hashBySum hashBySum)
      [([1], 1, 10), ([6], 1, 20), ([2], 1, 30)]) [6] 1 0).1 = FindOut.value 20 :=
  ⟨fun k l => Nat.mod_lt _ (by decide),
    insert_lookup_roundtrip_linear 5 hashBySum hashBySum
      (fun k l => Nat.mod_lt _ (by decide))
      [([1], 1, 10), ([6], 1, 20), ([2], 1, 30)] (by decide) (by decide)
      ([6], 1, 20) (by decide)⟩

/-- C6: if the entry count equals the capacity, aaInsert fails with the
TableFull sentinel straight away — the returned state is the input state,
byte for byte (so no slot, no counter and no cost was touched), and the
guard sits before the hash computation and before any probe call. -/
theorem insert_full_table_rejected (t : AssociativeArray) (key : List Nat)
    (keylen value probeFuel : Nat) (h : t.nEntries = t.size) :
    aaInsert t key keylen value probeFuel = (InsertResult.tableFull, t) := by
  unfold aaInsert
  rw [if_pos (le_of_eq h.symm)]

/-- Witness for insert_full_table_rejected at the concrete full table. -/
theorem insert_full_table_rejected_witness :
    tFull.nEntries = tFull.size ∧
    aaInsert tFull [4] 1 99 0 = (InsertResult.tableFull, tFull) :=
  ⟨by decide, insert_full_table_rejected tFull [4] 1 99 0 (by decide)⟩

/-- C8: aaIterateAction equals the spec-side traversal `visitEntries` run
on `usedEntries`: the visitor is invoked exactly once per USED slot, in
slot-index order 0..capacity-1, with that slot's stored key, key length
and value; EMPTY and DELETED slots are skipped; a failing visitor stops
the traversal immediately with the failure report -1, and otherwise the
traversal reports 1.  The statement quantifies over every table, so it is
independent of the configured probe strategy (which traversal never
consults). -/
theorem iterate_refines_visit {UD : Type} (t : AssociativeArray)
    (f : List Nat → Nat → Nat → UD → Int × UD) (u : UD) :
    aaIterateAction t f u = visitEntries f (usedEntries t) u := by
  unfold aaIterateAction usedEntries
  generalize t.table = L
  induction L generalizing u with
  | nil => rfl
  | cons s rest ih =>
    by_cases h : s.validity = Validity.used
    · by_cases hr : (f s.key s.keylen s.value u).1 < 0
      · simp [iterAux, List.filterMap_cons, h, visitEntries, hr]
      · simp [iterAux, List.filterMap_cons, h, visitEntries, hr, ih]
    · simp [iterAux, List.filterMap_cons, h, ih]

/-- C2: evaluation of the failing input.  In tTomb the key [11] hashes to
start index 1 and is stored in USED slot 3, reachable along its linear
probe path 1, 2, 3; slot 2 on that path is a DELETED tombstone.  Both
aaLookup and the identical aaDelete walk stop at the tombstone (the probe
returns any non-USED slot, and the outer while loop requires USED) and
report the NULL miss result even though the key is present, contradicting
the claim that a DELETED slot never terminates the walk early. -/
theorem tombstone_terminates_walk :
    hashBySum [11] 1 5 = 1 ∧
    (slotAt tTomb 2).validity = Validity.deleted ∧
    slotAt tTomb 3 = { key := [11], keylen := 1, value := 30, validity := Validity.used } ∧
    (aaLookup tTomb [11] 1 0).1 = FindOut.nullPtr ∧
    (aaDelete tTomb [11] 1 0).1 = FindOut.nullPtr := by
  decide

/-- C4: evaluation of the failing input.  In tPreDup the key [6] is USED
at slot 2 while its start slot 1 holds a tombstone.  Re-inserting [6]
exits the duplicate-scan loop at the tombstone immediately and stores a
second copy at slot 1, so the reachable state tDup has two USED slots
whose keys are byte+length equal, contradicting the at-most-one-USED-slot
invariant. -/
theorem duplicate_used_slots_reachable :
    slotAt tPreDup 2 = { key := [6], keylen := 1, value := 20, validity := Validity.used } ∧
    (aaInsert tPreDup [6] 1 30 0).1 = InsertResult.ok 1 ∧
    slotAt tDup 1 = { key := [6], keylen := 1, value := 30, validity := Validity.used } ∧
    slotAt tDup 2 = { key := [6], keylen := 1, value := 20, validity := Validity.used } ∧
    doKeysMatch [6] 1 [6] 1 = true := by
  decide

/-- C5: evaluation of the failing input.  tPreDup contains key [6] in USED
slot 2, yet aaInsert of [6] does not fail with the DuplicateKey sentinel:
it succeeds (slot index 1) and increments the entry count, because the
duplicate scan stops at the tombstoned start slot 1 before ever comparing
against the existing entry. -/
theorem insert_present_key_not_rejected :
    slotAt tPreDup 2 = { key := [6], keylen := 1, value := 20, validity := Validity.used } ∧
    (aaInsert tPreDup [6] 1 30 0).1 ≠ InsertResult.duplicateKey ∧
    (aaInsert tPreDup [6] 1 30 0).1 = InsertResult.ok 1 ∧
    (aaInsert tPreDup [6] 1 30 0).2.nEntries = tPreDup.nEntries + 1 := by
  decide

/-- C7: evaluation of the failing input.  tPair has insertCost 1 (from
inserting [6]) and searchCost 0.  A single aaLookup of the absent key [11]
walks the probe path 1, 2, 3 (three slots), yet searchCost rises only by 1
(it is bumped once per outer-loop iteration, not per probe step) and
insertCost rises by 1, because linearProbe increments the table's
insertCost field no matter which operation called it.  The identical
aaDelete walk for absent key [16] likewise bumps insertCost along with
deleteCost.  This contradicts the claim that each operation charges only
its own cost counter. -/
theorem lookup_delete_charge_insert_cost :
    tPair.insertCost = 1 ∧ tPair.searchCost = 0 ∧ tPair.deleteCost = 0 ∧
    (aaLookup tPair [11] 1 0).1 = FindOut.nullPtr ∧
    (aaLookup tPair [11] 1 0).2.insertCost = 2 ∧
    (aaLookup tPair [11] 1 0).2.searchCost = 1 ∧
    (aaLookup tPair [11] 1 0).2.deleteCost = 0 ∧
    (aaDelete tPair [16] 1 0).2.insertCost = 2 ∧
    (aaDelete tPair [16] 1 0).2.deleteCost = 1 ∧
    (aaDelete tPair [16] 1 0).2.searchCost = 0 := by
  decide

/-- C1, counterexample: on the freshly constructed 3-slot quadratic table,
the three mutually distinct keys [0], [3], [6] (sequence length equal to
the capacity) cannot all be inserted and retrieved: the third insert's
quadratic probe walk visits only slots 0 and 1 (both USED by the other
keys) forever, so the insert never terminates — the `diverge` marker here
is fuel exhaustion of the unbounded C loop at the generous fuel 64, and
the companion induction `qTwo_probeAux_diverge` below shows the same
marker results for every fuel value.  Consequently key [6] is never
retrievable with its value afterwards. -/
theorem roundtrip_fails_on_quadratic :
    (aaInsert qTwo [6] 1 30 64).1 = InsertResult.diverge ∧
    (aaLookup (runInserts 64 qFresh [([0], 1, 10), ([3], 1, 20), ([6], 1, 30)]) [6] 1 64).1
      = FindOut.diverge := by
  decide

theorem qTwo_probeAux_diverge :
    ∀ (fuel attempt : Nat),
      (quadraticProbeAux qTwo.table [6] 1 0 false true attempt fuel).1 = ProbeOut.diverge := by
  intro fuel
  induction fuel with
  | zero => intro _; rfl
  | succ f ih =>
    intro attempt
    have hlen : qTwo.table.length = 3 := by decide
    have hmm : attempt * attempt % 3 = attempt % 3 * (attempt % 3) % 3 := Nat.mul_mod _ _ _
    have h3 : attempt % 3 = 0 ∨ attempt % 3 = 1 ∨ attempt % 3 = 2 := by omega
    have hni : (0 + attempt * attempt) % qTwo.table.length = 0 ∨
        (0 + attempt * attempt) % qTwo.table.length = 1 := by
      rw [hlen, Nat.zero_add, hmm]
      rcases h3 with h | h | h <;> rw [h] <;> decide
    rcases hni with hni | hni <;>
    · simp only [quadraticProbeAux, hni]
      rw [if_neg (by decide), if_neg (by decide)]
      exact ih (attempt + 1)

theorem dOne_probeAux_diverge :
    ∀ (fuel attempt : Nat),
      (doubleHashProbeAux dOne.table [0, 0, 1] 3 1 0 false attempt fuel).1 = ProbeOut.diverge := by
  intro fuel
  induction fuel with
  | zero => intro _; rfl
  | succ f ih =>
    intro attempt
    have hni : (1 + attempt * 0) % dOne.table.length = 1 := by
      rw [Nat.mul_zero, (by decide : dOne.table.length = 3)]
    rcases hni with hni
    simp only [doubleHashProbeAux, hni]
    rw [if_neg (by decide), if_neg (by decide)]
    exact ih (attempt + 1)

/-- C3: refutation by the failing inputs.  A single call to quadraticProbe
on the reachable 3-slot table qTwo (keys [0], [3] USED, slot 2 EMPTY) for
key [6] never terminates: for every fuel bound the unbounded C `for` loop
is still running, since `(0 + a²) % 3` only visits the two USED,
non-matching slots 0 and 1.  Likewise a single doubleHashProbe call on
dOne for the 3-byte key [0,0,1] has step size `3 % 3 = 0` and revisits its
USED start slot 1 forever.  The public aaInsert calls that issue these
probe walks therefore also run unboundedly, contradicting the claimed
at-most-capacity probe bound and termination. -/
theorem probe_walks_not_bounded :
    (∀ fuel, (quadraticProbe qTwo [6] 1 0 false true fuel).1 = ProbeOut.diverge) ∧
    (∀ fuel, (doubleHashProbe dOne [0, 0, 1] 3 1 false fuel).1 = ProbeOut.diverge) ∧
    (∀ fuel, (aaInsert qTwo [6] 1 30 fuel).1 = InsertResult.diverge) ∧
    (∀ fuel, (aaInsert dOne [0, 0, 1] 3 20 fuel).1 = InsertResult.diverge) := by
  refine ⟨fun fuel => qTwo_probeAux_diverge fuel 1, fun fuel => ?_, fun fuel => ?_, fun fuel => ?_⟩
  · have hstep : dOne.hashAlgorithmSecondary [0, 0, 1] 3 dOne.size = 0 := by decide
    unfold doubleHashProbe
    rw [hstep]
    exact dOne_probeAux_diverge fuel 0
  · rcases hpair : quadraticProbeAux qTwo.table [6] 1 0 false true 1 fuel with ⟨po, inc⟩
    have hdiv : po = ProbeOut.diverge := by
      have := qTwo_probeAux_diverge fuel 1
      rw [hpair] at this
      exact this
    subst hdiv
    rw [aaInsert, if_neg (by decide),
      (by decide : qTwo.hashAlgorithmPrimary [6] 1 qTwo.size = 0),
      (by decide : qTwo.size + 1 = 3 + 1)]
    rw [aaInsertLoop, if_pos (by decide), if_neg (by decide)]
    simp only [hashProbe, (by decide : qTwo.probeKind = ProbeKind.quadratic), quadraticProbe,
      hpair]
  · rcases hpair : doubleHashProbeAux dOne.table [0, 0, 1] 3 1 0 false 0 fuel with ⟨po, inc⟩
    have hdiv : po = ProbeOut.diverge := by
      have := dOne_probeAux_diverge fuel 0
      rw [hpair] at this
      exact this
    subst hdiv
    rw [aaInsert, if_neg (by decide),
      (by decide : dOne.hashAlgorithmPrimary [0, 0, 1] 3 dOne.size = 1),
      (by decide : dOne.size + 1 = 3 + 1)]
    rw [aaInsertLoop, if_pos (by decide), if_neg (by decide)]
    simp only [hashProbe, (by decide : dOne.probeKind = ProbeKind.double), doubleHashProbe,
      (by decide : dOne.hashAlgorithmSecondary [0, 0, 1] 3 dOne.size = 0), hpair]

theorem aaDeleteLoop_preserves (key : List Nat) (keylen oi pf : Nat) :
    ∀ (fuel : Nat) (t : AssociativeArray) (index : Nat),
      (aaDeleteLoop key keylen oi pf t index fuel).2.nEntries = t.nEntries ∧
      (aaDeleteLoop key keylen oi pf t index fuel).2.table.length = t.table.length := by
  intro fuel
  induction fuel with
  | zero => intro t index; exact ⟨rfl, rfl⟩
  | succ f ih =>
    intro t index
    simp only [aaDeleteLoop]
    split
    · split
      · exact ⟨rfl, by simp [List.length_set]⟩
      · split
        · split
          · exact ⟨rfl, rfl⟩
          · exact ih _ _
        · exact ⟨rfl, rfl⟩
        · exact ⟨rfl, rfl⟩
    · exact ⟨rfl, rfl⟩

theorem aaLookupLoop_preserves (key : List Nat) (keylen oi pf : Nat) :
    ∀ (fuel : Nat) (t : AssociativeArray) (index : Nat),
      (aaLookupLoop key keylen oi pf t index fuel).2.nEntries = t.nEntries := by
  intro fuel
  induction fuel with
  | zero => intro t index; rfl
  | succ f ih =>
    intro t index
    simp only [aaLookupLoop]
    split
    · split
      · rfl
      · split
        · split
          · rfl
          · exact ih _ _
        · rfl
        · rfl
    · rfl

theorem aaInsertLoop_nEntries_mono (key : List Nat) (keylen value oi pf : Nat) :
    ∀ (fuel : Nat) (t : AssociativeArray) (index : Nat),
      t.nEntries ≤ (aaInsertLoop key keylen value oi pf t index fuel).2.nEntries := by
  intro fuel
  induction fuel with
  | zero => intro t index; exact Nat.le_refl _
  | succ f ih =>
    intro t index
    simp only [aaInsertLoop]
    split
    · split
      · exact Nat.le_refl _
      · split
        · split
          · exact Nat.le_refl _
          · exact ih (bumpInsertCost t _) _
        · exact Nat.le_refl _
        · exact Nat.le_refl _
    · exact Nat.le_succ _

/-- C9: the entry count never decreases under any operation — aaDelete
leaves nEntries unchanged even when it tombstones a present key (there is
no decrement anywhere in aaDelete), aaLookup leaves it unchanged, and
aaInsert only ever grows it.  Consequently, once nEntries has reached the
capacity, an aaInsert issued after any further aaDelete still fails with
the TableFull sentinel. -/
theorem entry_count_never_decreases (t : AssociativeArray) (key : List Nat)
    (keylen probeFuel : Nat) :
    (aaDelete t key keylen probeFuel).2.nEntries = t.nEntries ∧
    (aaLookup t key keylen probeFuel).2.nEntries = t.nEntries ∧
    (∀ k2 l2 v f2, t.nEntries ≤ (aaInsert t k2 l2 v f2).2.nEntries) ∧
    (∀ k2 l2 v f2, t.size ≤ t.nEntries →
      aaInsert (aaDelete t key keylen probeFuel).2 k2 l2 v f2
        = (InsertResult.tableFull, (aaDelete t key keylen probeFuel).2)) := by
  refine ⟨(aaDeleteLoop_preserves key keylen _ probeFuel _ t _).1,
    aaLookupLoop_preserves key keylen _ probeFuel _ t _,
    fun k2 l2 v f2 => ?_, fun k2 l2 v f2 hfull => ?_⟩
  · unfold aaInsert
    split
    · exact Nat.le_refl _
    · exact aaInsertLoop_nEntries_mono k2 l2 v _ f2 _ t _
  · have hpres := aaDeleteLoop_preserves key keylen
      (t.hashAlgorithmPrimary key keylen t.size) probeFuel (t.size + 1) t
      (t.hashAlgorithmPrimary key keylen t.size)
    unfold aaInsert
    rw [if_pos]
    show ((aaDelete t key keylen probeFuel).2).size ≤ _
    unfold aaDelete at hpres ⊢
    rw [AssociativeArray.size, hpres.1, hpres.2]
    exact hfull

/-- Witness for entry_count_never_decreases: deleting from the full table
tFull and inserting a fresh key afterwards still reports TableFull. -/
theorem entry_count_never_decreases_witness :
    tFull.size ≤ tFull.nEntries ∧
    aaInsert (aaDelete tFull [0] 1 0).2 [4] 1 9 0
      = (InsertResult.tableFull, (aaDelete tFull [0] 1 0).2) :=
  ⟨by decide, (entry_count_never_decreases tFull [0] 1 0).2.2.2 [4] 1 9 0 (by decide)⟩

theorem aaDeleteLoop_frame (key : List Nat) (keylen oi pf v : Nat) :
    ∀ (fuel : Nat) (t : AssociativeArray) (index : Nat) (t' : AssociativeArray),
      aaDeleteLoop key keylen oi pf t index fuel = (FindOut.value v, t') →
      ∃ i, i < t.table.length ∧
        (slotIn t.table i).validity = Validity.used ∧
        doKeysMatch (slotIn t.table i).key (slotIn t.table i).keylen key keylen = true ∧
        v = (slotIn t.table i).value ∧
        t'.table = t.table.set i { slotIn t.table i with validity := Validity.deleted } := by
  intro fuel
  induction fuel with
  | zero =>
    intro t index t' h
    rw [aaDeleteLoop] at h
    exact absurd (congrArg Prod.fst h) (by simp)
  | succ f ih =>
    intro t index t' h
    rw [aaDeleteLoop] at h
    by_cases hu : (slotAt t index).validity = Validity.used
    · rw [if_pos hu] at h
      by_cases hm : doKeysMatch (slotAt t index).key (slotAt t index).keylen
          key keylen = true
      · rw [if_pos hm] at h
        have hfst := congrArg Prod.fst h
        have hsnd := congrArg (fun p : FindOut × AssociativeArray => p.2.table) h
        refine ⟨index, slotIn_used_lt _ _ hu, hu, hm, ?_, ?_⟩
        · injection hfst with hv
          exact hv.symm
        · exact hsnd.symm
      · rw [if_neg hm] at h
        rcases hpr : hashProbe { t with deleteCost := t.deleteCost + 1 }
            key keylen oi false pf with ⟨po, inc⟩
        rw [hpr] at h
        cases po with
        | found j =>
          dsimp only at h
          by_cases hj : j = oi
          · rw [if_pos hj] at h
            exact absurd (congrArg Prod.fst h) (by simp)
          · rw [if_neg hj] at h
            exact ih (bumpInsertCost { t with deleteCost := t.deleteCost + 1 } inc) j t' h
        | fail =>
          dsimp only at h
          exact absurd (congrArg Prod.fst h) (by simp)
        | diverge =>
          dsimp only at h
          exact absurd (congrArg Prod.fst h) (by simp)
    · rw [if_neg hu] at h
      exact absurd (congrArg Prod.fst h) (by simp)

/-- C10: when aaDelete finds a matching key it returns the stored value
and flips only the matched slot's validity tag from USED to DELETED; the
slot's key bytes, key length and value stay stored in the slot, and every
other slot is untouched.  (This is why aaPrintContents can still render
the key of a DELETED slot.) -/
theorem delete_changes_only_validity (t : AssociativeArray) (key : List Nat)
    (keylen probeFuel v : Nat)
    (h : (aaDelete t key keylen probeFuel).1 = FindOut.value v) :
    ∃ i, i < t.size ∧
      (slotAt t i).validity = Validity.used ∧
      doKeysMatch (slotAt t i).key (slotAt t i).keylen key keylen = true ∧
      v = (slotAt t i).value ∧
      (slotAt (aaDelete t key keylen probeFuel).2 i).key = (slotAt t i).key ∧
      (slotAt (aaDelete t key keylen probeFuel).2 i).keylen = (slotAt t i).keylen ∧
      (slotAt (aaDelete t key keylen probeFuel).2 i).value = (slotAt t i).value ∧
      (slotAt (aaDelete t key keylen probeFuel).2 i).validity = Validity.deleted ∧
      (∀ j, j ≠ i → slotAt (aaDelete t key keylen probeFuel).2 j = slotAt t j) := by
  have hX : aaDelete t key keylen probeFuel
      = (FindOut.value v, (aaDelete t key keylen probeFuel).2) := by
    rw [← h]
  have hloop : aaDeleteLoop key keylen (t.hashAlgorithmPrimary key keylen t.size) probeFuel
      t (t.hashAlgorithmPrimary key keylen t.size) (t.size + 1)
      = (FindOut.value v, (aaDelete t key keylen probeFuel).2) := hX
  rcases aaDeleteLoop_frame key keylen _ probeFuel v _ t _ _ hloop with
    ⟨i, hlt, hu, hm, hv, htab⟩
  have hset : slotIn (aaDelete t key keylen probeFuel).2.table i
      = { slotIn t.table i with validity := Validity.deleted } := by
    rw [htab]
    exact slotIn_set_self _ _ _ hlt
  refine ⟨i, hlt, hu, hm, hv, ?_, ?_, ?_, ?_, ?_⟩
  · show (slotIn (aaDelete t key keylen probeFuel).2.table i).key = (slotIn t.table i).key
    rw [hset]
  · show (slotIn (aaDelete t key keylen probeFuel).2.table i).keylen = (slotIn t.table i).keylen
    rw [hset]
  · show (slotIn (aaDelete t key keylen probeFuel).2.table i).value = (slotIn t.table i).value
    rw [hset]
  · show (slotIn (aaDelete t key keylen probeFuel).2.table i).validity = Validity.deleted
    rw [hset]
  · intro j hj
    show slotIn (aaDelete t key keylen probeFuel).2.table j = slotIn t.table j
    rw [htab]
    exact slotIn_set_ne _ _ _ _ hj

/-- Witness for delete_changes_only_validity: deleting key [6] from
tTriple returns its stored value 20 and tombstones exactly slot 2. -/
theorem delete_changes_only_validity_witness :
    (aaDelete tTriple [6] 1 0).1 = FindOut.value 20 ∧
    (∃ i, i < tTriple.size ∧
      (slotAt tTriple i).validity = Validity.used ∧
      doKeysMatch (slotAt tTriple i).key (slotAt tTriple i).keylen [6] 1 = true ∧
      20 = (slotAt tTriple i).value ∧
      (slotAt (aaDelete tTriple [6] 1 0).2 i).key = (slotAt tTriple i).key ∧
      (slotAt (aaDelete tTriple [6] 1 0).2 i).keylen = (slotAt tTriple i).keylen ∧
      (slotAt (aaDelete tTriple [6] 1 0).2 i).value = (slotAt tTriple i).value ∧
      (slotAt (aaDelete tTriple [6] 1 0).2 i).validity = Validity.deleted ∧
      (∀ j, j ≠ i → slotAt (aaDelete tTriple [6] 1 0).2 j = slotAt tTriple j)) :=
  ⟨by decide, delete_changes_only_validity tTriple [6] 1 0 20 (by decide)⟩

end HashExp
